import Mathlib

/-!
Verification of the wiki → RAG search pipeline.

Shallow embedding of the algorithmic core of the repository:
the Slack response chunker (`splitIntoSlackChunks`), the synonym metadata
chunker (`chunkSynonyms`), the synonym lookup (`getSynonymsForContent`),
the batch extraction engine and merge step (`generateSynonyms`), the image
hash-cache processor (`processImagesToRag`), the sync orchestrator
(`syncWikiToGeminiRag`) and the query rewriter
(`rewriteUserQuestionForFileSearch`).  Strings are modelled as `List Char`;
external collaborators (the generation service, the remote file-search
store) are abstract parameters.
-/

namespace WikiRag

/-- Characters removed by the model of JS `String.prototype.trim`. -/
def isWS (c : Char) : Bool :=
  c = ' ' || c = '\t' || c = '\n' || c = '\r'

/-- Model of JS `s.trim()`: drop whitespace from both ends. -/
def jsTrim (s : List Char) : List Char :=
  ((s.dropWhile isWS).reverse.dropWhile isWS).reverse

/-! ### Response Chunker (`slackController.ts`, `splitIntoSlackChunks`) -/

/-- Index of the last `'.'` in `s` (JS `lastIndexOf`), `none` when absent. -/
def lastPeriodIdx (s : List Char) : Option Nat :=
  ((s.enum.filter (fun p => p.2 == '.')).map (fun p => p.1)).getLast?

/-- The slice-adjustment of the loop body: cut the candidate slice right
after the last period when that period lies past offset 2000. -/
def cutAtPeriod (slice : List Char) : List Char :=
  match lastPeriodIdx slice with
  | some i => if i > 2000 then slice.take (i + 1) else slice
  | none => slice

/-- The `while (remaining.length > maxSize)` loop of `splitIntoSlackChunks`,
with explicit fuel (the JS loop consumes at least one character per
iteration whenever `maxSize ≥ 1`, so `text.length` fuel is enough). -/
def splitGo (maxSize : Nat) : Nat → List Char → List (List Char)
  | 0, remaining => if remaining.isEmpty then [] else [remaining]
  | fuel + 1, remaining =>
    if remaining.length > maxSize then
      let slice := cutAtPeriod (remaining.take maxSize)
      slice :: splitGo maxSize fuel (jsTrim (remaining.drop slice.length))
    else if remaining.isEmpty then [] else [remaining]

/-- Model of `splitIntoSlackChunks(text, maxSize)` from `slackController.ts`. -/
def splitIntoSlackChunks (text : List Char) (maxSize : Nat) : List (List Char) :=
  splitGo maxSize text.length text

/-- `text` consists of the given chunks, in order, with whitespace-only runs
inserted after each chunk (the runs the loop's `.trim()` discards). -/
inductive ChunksCover : List (List Char) → List Char → Prop
  | nil : ChunksCover [] []
  | cons {c t : List Char} {cs : List (List Char)} {w₁ w₂ : List Char} :
      (∀ x ∈ w₁, isWS x) → (∀ x ∈ w₂, isWS x) → ChunksCover cs t →
      ChunksCover (c :: cs) (c ++ (w₁ ++ (t ++ w₂)))

/-- Every string decomposes as whitespace, its trim, whitespace. -/
theorem jsTrim_decomp (s : List Char) :
    ∃ w₁ w₂, (∀ x ∈ w₁, isWS x) ∧ (∀ x ∈ w₂, isWS x) ∧
      s = w₁ ++ (jsTrim s ++ w₂) := by
  refine ⟨s.takeWhile isWS, ((s.dropWhile isWS).reverse.takeWhile isWS).reverse,
    ?_, ?_, ?_⟩
  · intro x hx
    exact List.mem_takeWhile_imp hx
  · intro x hx
    exact List.mem_takeWhile_imp (List.mem_reverse.mp hx)
  · conv_lhs => rw [← List.takeWhile_append_dropWhile (p := isWS) (l := s)]
    congr 1
    unfold jsTrim
    conv_lhs => rw [← List.reverse_reverse (s.dropWhile isWS),
      ← List.takeWhile_append_dropWhile (p := isWS) (l := (s.dropWhile isWS).reverse)]
    rw [List.reverse_append]

/-- `cutAtPeriod` only shortens the slice (it returns a prefix). -/
theorem cutAtPeriod_shortens (slice : List Char) :
    cutAtPeriod slice <+: slice := by
  unfold cutAtPeriod
  cases h : lastPeriodIdx slice with
  | none => exact List.prefix_refl _
  | some i =>
    by_cases hi : i > 2000
    · simp only [hi, if_true]
      exact List.take_prefix _ _
    · simp only [hi, if_false]
      exact List.prefix_refl _

theorem splitGo_cover (maxSize : Nat) :
    ∀ fuel remaining, ChunksCover (splitGo maxSize fuel remaining) remaining := by
  intro fuel
  induction fuel with
  | zero =>
    intro remaining
    simp only [splitGo]
    by_cases h : remaining.isEmpty
    · simp only [h, if_true]
      rw [List.isEmpty_iff.mp h]
      exact ChunksCover.nil
    · simp only [h, if_false]
      have : ChunksCover [remaining] (remaining ++ ([] ++ ([] ++ []))) :=
        ChunksCover.cons (by simp) (by simp) ChunksCover.nil
      simpa using this
  | succ fuel ih =>
    intro remaining
    simp only [splitGo]
    by_cases hlen : remaining.length > maxSize
    · simp only [hlen, if_true]
      set slice := cutAtPeriod (remaining.take maxSize) with hslice
      have hpre : slice <+: remaining :=
        (cutAtPeriod_shortens _).trans (List.take_prefix _ _)
      have hdecomp : slice ++ remaining.drop slice.length = remaining := by
        conv_rhs => rw [← List.take_append_drop slice.length remaining]
        congr 1
        exact List.prefix_iff_eq_take.mp hpre
      obtain ⟨w₁, w₂, hw₁, hw₂, hsplit⟩ := jsTrim_decomp (remaining.drop slice.length)
      have hcov := ih (jsTrim (remaining.drop slice.length))
      have : ChunksCover
          (slice :: splitGo maxSize fuel (jsTrim (remaining.drop slice.length)))
          (slice ++ (w₁ ++ (jsTrim (remaining.drop slice.length) ++ w₂))) :=
        ChunksCover.cons hw₁ hw₂ hcov
      rw [← hsplit, hdecomp] at this
      exact this
    · simp only [hlen, if_false]
      by_cases h : remaining.isEmpty
      · simp only [h, if_true]
        rw [List.isEmpty_iff.mp h]
        exact ChunksCover.nil
      · simp only [h, if_false]
        have : ChunksCover [remaining] (remaining ++ ([] ++ ([] ++ []))) :=
          ChunksCover.cons (by simp) (by simp) ChunksCover.nil
        simpa using this

/-- C1 counterexample: the exact round-trip fails because the loop trims
whitespace off the remainder after each cut.  At `text = "aaaaa b"`,
`maxSize = 5`, the chunks are `["aaaaa", "b"]` and the space is lost. -/
theorem C1_counterexample :
    (splitIntoSlackChunks ("aaaaa b".data) 5).flatten ≠ "aaaaa b".data := by
  decide

/-- C1 (amended): concatenating the chunks of `splitIntoSlackChunks`
reproduces the original text up to whitespace-only runs removed after each
chunk: the text is exactly the chunks in order with whitespace runs
reinserted between and after them. -/
theorem C1_amended_roundtrip (text : List Char) (maxSize : Nat) :
    ChunksCover (splitIntoSlackChunks text maxSize) text :=
  splitGo_cover maxSize text.length text

/-! ### Metadata Chunker (`geminiService.ts`, `chunkSynonyms`) -/

/-- The `for (const syn of synonyms)` loop of `chunkSynonyms`, carrying the
emitted chunks and the running buffer `current`. -/
def chunkGo (maxLen : Nat) :
    List (List Char) → List (List Char) → List Char → List (List Char)
  | [], chunks, current => if current.isEmpty then chunks else chunks ++ [current]
  | syn :: rest, chunks, current =>
    let trimmed := jsTrim syn
    if trimmed.isEmpty then chunkGo maxLen rest chunks current
    else
      let addition := (if current.isEmpty then [] else ", ".data) ++ trimmed
      if current.length + addition.length > maxLen then
        let chunks₁ := if current.isEmpty then chunks else chunks ++ [current]
        if trimmed.length > maxLen then
          chunkGo maxLen rest (chunks₁ ++ [trimmed.take maxLen]) []
        else chunkGo maxLen rest chunks₁ trimmed
      else chunkGo maxLen rest chunks (current ++ addition)

/-- Model of `chunkSynonyms(synonyms, maxLen)` from `geminiService.ts`. -/
def chunkSynonyms (synonyms : List (List Char)) (maxLen : Nat) : List (List Char) :=
  chunkGo maxLen synonyms [] []

/-- All elements prefixed by the `", "` separator, concatenated. -/
def preJoin (l : List (List Char)) : List Char :=
  (l.map (fun c => ", ".data ++ c)).flatten

/-- Model of JS `array.join(", ")`. -/
def sepJoin : List (List Char) → List Char
  | [] => []
  | c :: rest => c ++ preJoin rest

theorem preJoin_append (a b : List (List Char)) :
    preJoin (a ++ b) = preJoin a ++ preJoin b := by
  simp [preJoin]

theorem sepJoin_append_cons (xs : List (List Char)) (y : List Char)
    (ys : List (List Char)) :
    sepJoin (xs ++ y :: ys) =
      sepJoin xs ++ (if xs.isEmpty then [] else ", ".data) ++ y ++ preJoin ys := by
  cases xs with
  | nil => simp [sepJoin]
  | cons x xs => simp [sepJoin, preJoin_append, preJoin]

/-- Splicing a `", "`-glued element is the same as two adjacent elements. -/
theorem sepJoin_glue (xs : List (List Char)) (a b : List Char)
    (ys : List (List Char)) :
    sepJoin (xs ++ (a ++ (", ".data ++ b)) :: ys) = sepJoin (xs ++ a :: b :: ys) := by
  cases xs with
  | nil => simp [sepJoin, preJoin]
  | cons x xs => simp [sepJoin, preJoin_append, preJoin]

/-- The buffered terms, as chunk list: empty buffer contributes nothing. -/
def pending (current : List Char) : List (List Char) :=
  if current.isEmpty then [] else [current]

theorem chunkGo_join (maxLen : Nat) :
    ∀ (rest : List (List Char)) (chunks : List (List Char)) (current : List Char),
      (∀ t ∈ rest, jsTrim t ≠ []) →
      sepJoin (chunkGo maxLen rest chunks current) =
        sepJoin ((chunks ++ pending current) ++
          rest.map (fun t => (jsTrim t).take maxLen)) := by
  intro rest
  induction rest with
  | nil =>
    intro chunks current _
    simp only [chunkGo, pending, List.map_nil, List.append_nil]
    by_cases h : current.isEmpty <;> simp [h]
  | cons syn rest ih =>
    intro chunks current hne
    have hsyn : jsTrim syn ≠ [] := hne syn (List.mem_cons_self _ _)
    have hrest : ∀ t ∈ rest, jsTrim t ≠ [] := fun t ht => hne t (List.mem_cons_of_mem _ ht)
    have hsyn' : ¬(jsTrim syn).isEmpty = true := by simpa [List.isEmpty_iff] using hsyn
    have hpsyn : pending (jsTrim syn) = [jsTrim syn] := by
      simp [pending, hsyn]
    simp only [chunkGo, if_neg hsyn']
    by_cases hcur : current.isEmpty = true
    · -- empty buffer: addition is just the trimmed term
      have hc : current = [] := List.isEmpty_iff.mp hcur
      subst hc
      simp only [if_pos hcur, List.nil_append, List.length_nil, Nat.zero_add]
      by_cases hover : (jsTrim syn).length > maxLen
      · rw [if_pos hover, if_pos hover, ih _ _ hrest]
        simp [pending, List.map_cons]
      · rw [if_neg hover, ih _ _ hrest]
        have htake : (jsTrim syn).take maxLen = jsTrim syn :=
          List.take_of_length_le (Nat.le_of_not_lt hover)
        simp [pending, List.map_cons, htake, hsyn]
    · -- non-empty buffer: addition carries the ", " separator
      have hcne : current ≠ [] := fun h => hcur (by simp [h])
      have hpcur : pending current = [current] := by
        simp [pending, hcne]
      simp only [if_neg hcur]
      by_cases hover :
          current.length + (", ".data ++ jsTrim syn).length > maxLen
      · rw [if_pos hover]
        by_cases hbig : (jsTrim syn).length > maxLen
        · rw [if_pos hbig, ih _ _ hrest]
          simp [pending, hpcur, List.map_cons, hcne]
        · rw [if_neg hbig, ih _ _ hrest]
          have htake : (jsTrim syn).take maxLen = jsTrim syn :=
            List.take_of_length_le (Nat.le_of_not_lt hbig)
          simp [pending, hpcur, hpsyn, List.map_cons, htake, hsyn, hcne]
      · rw [if_neg hover, ih _ _ hrest]
        have hle : (jsTrim syn).length ≤ maxLen := by
          simp only [List.length_append] at hover
          omega
        have htake : (jsTrim syn).take maxLen = jsTrim syn :=
          List.take_of_length_le hle
        have hpend : pending (current ++ (", ".data ++ jsTrim syn)) =
            [current ++ (", ".data ++ jsTrim syn)] := by
          simp [pending, List.isEmpty_iff, hcne]
        rw [hpend, hpcur]
        simp only [List.map_cons, htake, List.append_assoc, List.singleton_append]
        rw [sepJoin_glue]

theorem chunkGo_bound (maxLen : Nat) :
    ∀ (rest : List (List Char)) (chunks : List (List Char)) (current : List Char),
      (∀ c ∈ chunks, c.length ≤ maxLen) → current.length ≤ maxLen →
      ∀ c ∈ chunkGo maxLen rest chunks current, c.length ≤ maxLen := by
  intro rest
  induction rest with
  | nil =>
    intro chunks current hch hcur c hc
    simp only [chunkGo] at hc
    by_cases h : current.isEmpty
    · rw [if_pos h] at hc; exact hch c hc
    · rw [if_neg h] at hc
      rcases List.mem_append.mp hc with h' | h'
      · exact hch c h'
      · simp only [List.mem_singleton] at h'; subst h'; exact hcur
  | cons syn rest ih =>
    intro chunks current hch hcur c hc
    simp only [chunkGo] at hc
    by_cases hskip : (jsTrim syn).isEmpty
    · rw [if_pos hskip] at hc; exact ih chunks current hch hcur c hc
    · rw [if_neg hskip] at hc
      set addition := (if current.isEmpty then [] else ", ".data) ++ jsTrim syn with haddn
      by_cases hover : current.length + addition.length > maxLen
      · rw [if_pos hover] at hc
        have hch₁ : ∀ x ∈ (if current.isEmpty then chunks else chunks ++ [current]),
            x.length ≤ maxLen := by
          intro x hx
          by_cases he : current.isEmpty
          · rw [if_pos he] at hx; exact hch x hx
          · rw [if_neg he] at hx
            rcases List.mem_append.mp hx with h' | h'
            · exact hch x h'
            · simp only [List.mem_singleton] at h'; subst h'; exact hcur
        by_cases hbig : (jsTrim syn).length > maxLen
        · rw [if_pos hbig] at hc
          refine ih _ [] ?_ (by simp) c hc
          intro x hx
          rcases List.mem_append.mp hx with h' | h'
          · exact hch₁ x h'
          · simp only [List.mem_singleton] at h'; subst h'
            exact List.length_take_le maxLen (jsTrim syn)
        · rw [if_neg hbig] at hc
          exact ih _ _ hch₁ (Nat.le_of_not_lt hbig) c hc
      · rw [if_neg hover] at hc
        refine ih _ _ hch ?_ c hc
        simp only [List.length_append]
        omega

/-- C6: joining the metadata chunks with `", "` reproduces the trimmed terms
joined with `", "`, up to hard truncation to `maxLen` of any single
over-length term, and every chunk has length at most `maxLen`. -/
theorem C6_chunkSynonyms_roundtrip_bound (terms : List (List Char)) (maxLen : Nat)
    (h : ∀ t ∈ terms, jsTrim t ≠ []) :
    sepJoin (chunkSynonyms terms maxLen) =
      sepJoin (terms.map (fun t => (jsTrim t).take maxLen)) ∧
    ∀ c ∈ chunkSynonyms terms maxLen, c.length ≤ maxLen := by
  constructor
  · have := chunkGo_join maxLen terms [] [] h
    simpa [chunkSynonyms, pending] using this
  · exact chunkGo_bound maxLen terms [] [] (by simp) (by simp)

/-- C6 witness at `terms = ["ab ", " cd", "efghi"]`, `maxLen = 5`. -/
theorem C6_witness :
    (∀ t ∈ ["ab ".data, " cd".data, "efghi".data], jsTrim t ≠ []) ∧
    (sepJoin (chunkSynonyms ["ab ".data, " cd".data, "efghi".data] 5) =
      sepJoin (["ab ".data, " cd".data, "efghi".data].map
        (fun t => (jsTrim t).take 5)) ∧
    ∀ c ∈ chunkSynonyms ["ab ".data, " cd".data, "efghi".data] 5, c.length ≤ 5) :=
  ⟨by decide, C6_chunkSynonyms_roundtrip_bound _ 5 (by decide)⟩

/-! ### Lowercasing (the ASCII fragment of JS `toLowerCase`) -/

/-- ASCII uppercase → lowercase pairs: the fragment of JS `toLowerCase`
this code path exercises. -/
def upperLowerPairs : List (Char × Char) :=
  [('A', 'a'), ('B', 'b'), ('C', 'c'), ('D', 'd'), ('E', 'e'), ('F', 'f'),
   ('G', 'g'), ('H', 'h'), ('I', 'i'), ('J', 'j'), ('K', 'k'), ('L', 'l'),
   ('M', 'm'), ('N', 'n'), ('O', 'o'), ('P', 'p'), ('Q', 'q'), ('R', 'r'),
   ('S', 's'), ('T', 't'), ('U', 'u'), ('V', 'v'), ('W', 'w'), ('X', 'x'),
   ('Y', 'y'), ('Z', 'z')]

def lowerChar (c : Char) : Char :=
  (upperLowerPairs.lookup c).getD c

/-- Model of JS `s.toLowerCase()`. -/
def lowerStr (s : List Char) : List Char :=
  s.map lowerChar

theorem lookup_mem {l : List (Char × Char)} {c v : Char}
    (h : l.lookup c = some v) : (c, v) ∈ l := by
  induction l with
  | nil => simp [List.lookup] at h
  | cons p t ih =>
    obtain ⟨a, b⟩ := p
    by_cases hc : c = a
    · subst hc
      simp [List.lookup] at h
      subst h
      exact List.mem_cons_self _ _
    · have hb : (c == a) = false := by simp [hc]
      simp only [List.lookup, hb] at h
      exact List.mem_cons_of_mem _ (ih h)

theorem lowerChar_fixed_of_target {c : Char}
    (h : upperLowerPairs.lookup c = none) : lowerChar c = c := by
  simp [lowerChar, h]

theorem lowerChar_idem (c : Char) : lowerChar (lowerChar c) = lowerChar c := by
  cases h : upperLowerPairs.lookup c with
  | none => rw [lowerChar_fixed_of_target h, lowerChar_fixed_of_target h]
  | some v =>
    have hmem : (c, v) ∈ upperLowerPairs := lookup_mem h
    have hv : upperLowerPairs.lookup v = none := by
      have : ∀ p ∈ upperLowerPairs, upperLowerPairs.lookup p.2 = none := by decide
      exact this _ hmem
    have h1 : lowerChar c = v := by simp [lowerChar, h]
    rw [h1, lowerChar_fixed_of_target hv]

theorem isWS_lowerChar (c : Char) : isWS (lowerChar c) = isWS c := by
  cases h : upperLowerPairs.lookup c with
  | none => rw [lowerChar_fixed_of_target h]
  | some v =>
    have hmem : (c, v) ∈ upperLowerPairs := lookup_mem h
    have hfacts : ∀ p ∈ upperLowerPairs, isWS p.1 = false ∧ isWS p.2 = false := by
      decide
    have h1 : lowerChar c = v := by simp [lowerChar, h]
    rw [h1, (hfacts _ hmem).1, (hfacts _ hmem).2]

theorem lowerStr_idem (s : List Char) : lowerStr (lowerStr s) = lowerStr s := by
  simp [lowerStr, List.map_map, Function.comp_def, lowerChar_idem]

/-! ### Synonym lookup (`geminiService.ts`, `getSynonymsForContent`) -/

/-- One entry of the loaded `synonyms.json` (`SynonymConfig` in
`geminiService.ts`). -/
structure SynonymConfig where
  term : List Char
  synonyms : List (List Char)
deriving DecidableEq

/-- Model of JS `hay.includes(sub)`: contiguous substring test. -/
def jsIncludes : List Char → List Char → Bool
  | [], sub => sub.isEmpty
  | c :: t, sub => sub.isPrefixOf (c :: t) || jsIncludes t sub

/-- JS `Set.add` on an insertion-ordered list. -/
def setAdd (s : List (List Char)) (x : List Char) : List (List Char) :=
  if x ∈ s then s else s ++ [x]

/-- The hit test of the loop body: the lowercased content contains the
lowercased term, or some lowercased synonym. -/
def entryHit (lower : List Char) (e : SynonymConfig) : Bool :=
  jsIncludes lower (lowerStr e.term) ||
    e.synonyms.any (fun s => jsIncludes lower (lowerStr s))

/-- The `for (const entry of synonymConfigs)` loop of
`getSynonymsForContent`, carrying the insertion-ordered `found` set. -/
def getSynGo (lower : List Char) :
    List SynonymConfig → List (List Char) → List (List Char)
  | [], found => found
  | e :: rest, found =>
    if entryHit lower e then
      getSynGo lower rest
        ((e.synonyms.map lowerStr).foldl setAdd (setAdd found (lowerStr e.term)))
    else getSynGo lower rest found

/-- Model of `getSynonymsForContent(content)` from `geminiService.ts`,
with the loaded `synonymConfigs` as an explicit argument. -/
def getSynonymsForContent (configs : List SynonymConfig) (content : List Char) :
    List (List Char) :=
  getSynGo (lowerStr content) configs []

theorem mem_setAdd_iff {s : List (List Char)} {x y : List Char} :
    y ∈ setAdd s x ↔ y ∈ s ∨ y = x := by
  unfold setAdd
  by_cases h : x ∈ s
  · rw [if_pos h]
    constructor
    · exact Or.inl
    · rintro (hy | rfl)
      · exact hy
      · exact h
  · rw [if_neg h]
    simp

theorem nodup_setAdd {s : List (List Char)} (h : s.Nodup) (x : List Char) :
    (setAdd s x).Nodup := by
  unfold setAdd
  by_cases hx : x ∈ s
  · rwa [if_pos hx]
  · rw [if_neg hx, List.nodup_append]
    refine ⟨h, List.nodup_singleton x, ?_⟩
    intro a ha hax
    rw [List.mem_singleton] at hax
    subst hax
    exact hx ha

theorem mem_foldl_setAdd_iff {l : List (List Char)} {s : List (List Char)}
    {y : List Char} :
    y ∈ l.foldl setAdd s ↔ y ∈ s ∨ y ∈ l := by
  induction l generalizing s with
  | nil => simp
  | cons a t ih =>
    simp only [List.foldl_cons, ih, mem_setAdd_iff, List.mem_cons]
    tauto

theorem nodup_foldl_setAdd {l : List (List Char)} {s : List (List Char)}
    (h : s.Nodup) : (l.foldl setAdd s).Nodup := by
  induction l generalizing s with
  | nil => exact h
  | cons a t ih => exact ih (nodup_setAdd h a)

theorem mem_getSynGo_iff (lower : List Char) :
    ∀ (configs : List SynonymConfig) (found : List (List Char)) (y : List Char),
      y ∈ getSynGo lower configs found ↔
        y ∈ found ∨ ∃ e ∈ configs, entryHit lower e = true ∧
          (y = lowerStr e.term ∨ y ∈ e.synonyms.map lowerStr) := by
  intro configs
  induction configs with
  | nil => simp [getSynGo]
  | cons e rest ih =>
    intro found y
    simp only [getSynGo]
    by_cases hhit : entryHit lower e = true
    · rw [if_pos hhit, ih]
      simp only [mem_foldl_setAdd_iff, mem_setAdd_iff, List.mem_cons]
      constructor
      · rintro (((hy | rfl) | hy) | ⟨e', he', hh, hy⟩)
        · exact Or.inl hy
        · exact Or.inr ⟨e, Or.inl rfl, hhit, Or.inl rfl⟩
        · exact Or.inr ⟨e, Or.inl rfl, hhit, Or.inr hy⟩
        · exact Or.inr ⟨e', Or.inr he', hh, hy⟩
      · rintro (hy | ⟨e', (rfl | he'), hh, hy⟩)
        · exact Or.inl (Or.inl (Or.inl hy))
        · rcases hy with rfl | hy
          · exact Or.inl (Or.inl (Or.inr rfl))
          · exact Or.inl (Or.inr hy)
        · exact Or.inr ⟨e', he', hh, hy⟩
    · rw [if_neg hhit, ih]
      constructor
      · rintro (hy | ⟨e', he', hh, hy⟩)
        · exact Or.inl hy
        · exact Or.inr ⟨e', List.mem_cons_of_mem _ he', hh, hy⟩
      · rintro (hy | ⟨e', he', hh, hy⟩)
        · exact Or.inl hy
        · rcases List.mem_cons.mp he' with rfl | he''
          · exact absurd hh hhit
          · exact Or.inr ⟨e', he'', hh, hy⟩

theorem nodup_getSynGo (lower : List Char) :
    ∀ (configs : List SynonymConfig) (found : List (List Char)),
      found.Nodup → (getSynGo lower configs found).Nodup := by
  intro configs
  induction configs with
  | nil => intro found h; exact h
  | cons e rest ih =>
    intro found h
    simp only [getSynGo]
    by_cases hhit : entryHit lower e = true
    · rw [if_pos hhit]
      exact ih _ (nodup_foldl_setAdd (nodup_setAdd h _))
    · rw [if_neg hhit]
      exact ih _ h

/-- C10: whole-cluster synonym attachment.  A hit on the term or any synonym
attaches the lowercased term and all lowercased synonyms; everything in the
result comes from some hit entry; and the result has no duplicates. -/
theorem C10_getSynonymsForContent_clusters
    (configs : List SynonymConfig) (content : List Char) :
    (∀ e ∈ configs, entryHit (lowerStr content) e = true →
      lowerStr e.term ∈ getSynonymsForContent configs content ∧
      ∀ s ∈ e.synonyms, lowerStr s ∈ getSynonymsForContent configs content) ∧
    (∀ x ∈ getSynonymsForContent configs content, ∃ e ∈ configs,
      entryHit (lowerStr content) e = true ∧
      (x = lowerStr e.term ∨ x ∈ e.synonyms.map lowerStr)) ∧
    (getSynonymsForContent configs content).Nodup := by
  refine ⟨?_, ?_, ?_⟩
  · intro e he hhit
    constructor
    · rw [getSynonymsForContent, mem_getSynGo_iff]
      exact Or.inr ⟨e, he, hhit, Or.inl rfl⟩
    · intro s hs
      rw [getSynonymsForContent, mem_getSynGo_iff]
      exact Or.inr ⟨e, he, hhit, Or.inr (List.mem_map_of_mem _ hs)⟩
  · intro x hx
    rw [getSynonymsForContent, mem_getSynGo_iff] at hx
    rcases hx with hx | hx
    · simp at hx
    · exact hx
  · exact nodup_getSynGo _ configs [] List.nodup_nil

/-- C10 witness: a synonym hit ("tunnel" in the content) attaches the whole
"vpn" cluster. -/
theorem C10_witness :
    (⟨"VPN".data, ["tunnel".data, "virtual private network".data]⟩ :
        SynonymConfig) ∈
      [(⟨"VPN".data, ["tunnel".data, "virtual private network".data]⟩ :
        SynonymConfig)] ∧
    entryHit (lowerStr "Open the Tunnel now".data)
      ⟨"VPN".data, ["tunnel".data, "virtual private network".data]⟩ = true ∧
    lowerStr "VPN".data ∈
      getSynonymsForContent
        [⟨"VPN".data, ["tunnel".data, "virtual private network".data]⟩]
        "Open the Tunnel now".data ∧
    ∀ s ∈ ["tunnel".data, "virtual private network".data],
      lowerStr s ∈
        getSynonymsForContent
          [⟨"VPN".data, ["tunnel".data, "virtual private network".data]⟩]
          "Open the Tunnel now".data := by
  refine ⟨by decide, by decide, ?_⟩
  have h := (C10_getSynonymsForContent_clusters
    [⟨"VPN".data, ["tunnel".data, "virtual private network".data]⟩]
    "Open the Tunnel now".data).1
    ⟨"VPN".data, ["tunnel".data, "virtual private network".data]⟩
    (by decide) (by decide)
  exact h

/-! ### Trim and lowercase laws -/

theorem dropWhile_idem (p : Char → Bool) (l : List Char) :
    (l.dropWhile p).dropWhile p = l.dropWhile p := by
  induction l with
  | nil => rfl
  | cons a t ih =>
    by_cases h : p a
    · simp [List.dropWhile_cons, h, ih]
    · simp [List.dropWhile_cons, h]

/-- Right-trim: drop trailing whitespace. -/
def trimEnd (s : List Char) : List Char :=
  (s.reverse.dropWhile isWS).reverse

theorem jsTrim_eq_trimEnd_dropWhile (s : List Char) :
    jsTrim s = trimEnd (s.dropWhile isWS) := rfl

theorem trimEnd_idem (s : List Char) : trimEnd (trimEnd s) = trimEnd s := by
  unfold trimEnd
  rw [List.reverse_reverse, dropWhile_idem]

theorem trimEnd_cons (a : Char) (t : List Char) :
    trimEnd (a :: t) =
      if (t.reverse.dropWhile isWS).isEmpty then
        (if isWS a then [] else [a])
      else a :: trimEnd t := by
  unfold trimEnd
  rw [List.reverse_cons, List.dropWhile_append]
  by_cases he : (t.reverse.dropWhile isWS).isEmpty
  · rw [if_pos he, if_pos he]
    by_cases h : isWS a
    · simp [List.dropWhile_cons, h]
    · simp [List.dropWhile_cons, h]
  · rw [if_neg he, if_neg he]
    simp

/-- Left- and right-trim commute. -/
theorem trimEnd_dropWhile_comm (s : List Char) :
    trimEnd (s.dropWhile isWS) = (trimEnd s).dropWhile isWS := by
  induction s with
  | nil => rfl
  | cons a t ih =>
    rw [trimEnd_cons]
    by_cases he : (t.reverse.dropWhile isWS).isEmpty
    · rw [if_pos he]
      have hall : ∀ x ∈ t, isWS x := by
        intro x hx
        have := List.dropWhile_eq_nil_iff.mp (List.isEmpty_iff.mp he)
        exact this x (List.mem_reverse.mpr hx)
      have ht : t.dropWhile isWS = [] := List.dropWhile_eq_nil_iff.mpr hall
      by_cases h : isWS a
      · rw [if_pos h, List.dropWhile_cons_of_pos h, ht]
        rfl
      · rw [if_neg h, List.dropWhile_cons_of_neg h, trimEnd_cons, if_pos he,
          if_neg h, List.dropWhile_cons_of_neg h]
    · rw [if_neg he]
      by_cases h : isWS a
      · rw [List.dropWhile_cons_of_pos h, ih, List.dropWhile_cons_of_pos h]
      · rw [List.dropWhile_cons_of_neg h, trimEnd_cons, if_neg he,
          List.dropWhile_cons_of_neg h]

theorem jsTrim_idem (s : List Char) : jsTrim (jsTrim s) = jsTrim s := by
  rw [jsTrim_eq_trimEnd_dropWhile, jsTrim_eq_trimEnd_dropWhile s,
    ← trimEnd_dropWhile_comm, dropWhile_idem, trimEnd_idem]

theorem jsTrim_lowerStr (s : List Char) :
    jsTrim (lowerStr s) = lowerStr (jsTrim s) := by
  have hpf : isWS ∘ lowerChar = isWS := funext isWS_lowerChar
  unfold jsTrim lowerStr
  rw [List.dropWhile_map, hpf, ← List.map_reverse, List.dropWhile_map, hpf,
    ← List.map_reverse]

/-- Model of JS `s.trim().toLowerCase()`, the canonicalisation applied to
every term and synonym by the merge step of `generateSynonyms`. -/
def canon (s : List Char) : List Char := lowerStr (jsTrim s)

theorem canon_idem (s : List Char) : canon (canon s) = canon s := by
  unfold canon
  rw [jsTrim_lowerStr, jsTrim_idem, lowerStr_idem]

/-! ### Synonym merge step (`optimizeExtractSynonyms.ts`, `generateSynonyms`) -/

/-- The JS `Map<string, Set<string>>` of the merge step: insertion-ordered
association list of term → synonym set. -/
abbrev SynMap := List (List Char × List (List Char))

/-- `if (!map.has(term)) map.set(term, new Set())`. -/
def mapEnsure (m : SynMap) (k : List Char) : SynMap :=
  if (m.lookup k).isSome then m else m ++ [(k, [])]

/-- `map.get(term)!.add(s)`: add `s` to the set stored at key `k`. -/
def mapAddSyn (m : SynMap) (k s : List Char) : SynMap :=
  m.map (fun p => if p.1 = k then (p.1, setAdd p.2 s) else p)

/-- The synonym filter of the merge loop: `s.length > 0 && s !== term`. -/
def keepSyn (term s : List Char) : Bool := !s.isEmpty && s != term

/-- One iteration of `for (const entry of results)` in the merge step:
skip empty raw or canonicalised terms, ensure the key, add the
canonicalised, filtered synonyms. -/
def mergeEntry (m : SynMap) (e : SynonymConfig) : SynMap :=
  if e.term.isEmpty then m
  else if (canon e.term).isEmpty then m
  else
    ((e.synonyms.map canon).filter (keepSyn (canon e.term))).foldl
      (fun acc s => mapAddSyn acc (canon e.term) s) (mapEnsure m (canon e.term))

/-- The merge-and-dedupe step of `generateSynonyms` (`finalOutput`): fold
all raw entries into the map, then keep entries with non-empty synonym
sets. -/
def mergeSynonyms (results : List SynonymConfig) : List SynonymConfig :=
  ((results.foldl mergeEntry []).map (fun p => SynonymConfig.mk p.1 p.2)).filter
    (fun x => !x.synonyms.isEmpty)

/-- Well-formedness of one pair of the merge map. -/
def GoodPair (p : List Char × List (List Char)) : Prop :=
  canon p.1 = p.1 ∧ p.1 ≠ [] ∧ p.2.Nodup ∧
    ∀ s ∈ p.2, canon s = s ∧ s ≠ [] ∧ s ≠ p.1

/-- Well-formedness of the merge map: distinct keys, canonical pairs. -/
def GoodMap (m : SynMap) : Prop :=
  m.Pairwise (fun p q => p.1 ≠ q.1) ∧ ∀ p ∈ m, GoodPair p

theorem synLookup_eq_none_iff {m : SynMap} {k : List Char} :
    m.lookup k = none ↔ ∀ p ∈ m, p.1 ≠ k := by
  induction m with
  | nil => simp [List.lookup]
  | cons p t ih =>
    obtain ⟨a, b⟩ := p
    by_cases h : k = a
    · have hb : (k == a) = true := by simp [h]
      simp only [List.lookup, hb]
      constructor
      · intro hl
        exact absurd hl (by simp)
      · intro hall
        exact absurd h.symm (hall (a, b) (List.mem_cons_self _ _))
    · have hb : (k == a) = false := by simp [h]
      simp only [List.lookup, hb, List.mem_cons]
      rw [ih]
      constructor
      · intro hall q hq
        rcases hq with rfl | hq
        · exact fun he => h he.symm
        · exact hall q hq
      · intro hall q hq
        exact hall q (Or.inr hq)

theorem mapAddSyn_fst (p : List Char × List (List Char)) (k s : List Char) :
    (if p.1 = k then (p.1, setAdd p.2 s) else p).1 = p.1 := by
  by_cases h : p.1 = k <;> simp [h]

theorem mapAddSyn_pairwise {m : SynMap}
    (hm : m.Pairwise (fun p q => p.1 ≠ q.1)) (k s : List Char) :
    (mapAddSyn m k s).Pairwise (fun p q => p.1 ≠ q.1) := by
  unfold mapAddSyn
  refine List.Pairwise.map _ ?_ hm
  intro p q hpq
  rw [mapAddSyn_fst, mapAddSyn_fst]
  exact hpq

theorem mapAddSyn_good {m : SynMap} (hm : GoodMap m) {k s : List Char}
    (hs : canon s = s) (hs0 : s ≠ []) (hsk : s ≠ k) :
    GoodMap (mapAddSyn m k s) := by
  obtain ⟨hpw, hgood⟩ := hm
  refine ⟨mapAddSyn_pairwise hpw k s, ?_⟩
  intro p hp
  unfold mapAddSyn at hp
  obtain ⟨q, hq, rfl⟩ := List.mem_map.mp hp
  obtain ⟨h1, h2, h3, h4⟩ := hgood q hq
  by_cases h : q.1 = k
  · rw [if_pos h]
    refine ⟨h1, h2, nodup_setAdd h3 s, ?_⟩
    intro x hx
    rcases mem_setAdd_iff.mp hx with hx | rfl
    · exact h4 x hx
    · exact ⟨hs, hs0, by rw [h]; exact hsk⟩
  · rw [if_neg h]
    exact ⟨h1, h2, h3, h4⟩

theorem foldl_mapAddSyn_good {k : List Char} :
    ∀ (ss : List (List Char)) (m : SynMap), GoodMap m →
      (∀ s ∈ ss, canon s = s ∧ s ≠ [] ∧ s ≠ k) →
      GoodMap (ss.foldl (fun acc s => mapAddSyn acc k s) m) := by
  intro ss
  induction ss with
  | nil => intro m hm _; exact hm
  | cons s t ih =>
    intro m hm hs
    rw [List.foldl_cons]
    obtain ⟨h1, h2, h3⟩ := hs s (List.mem_cons_self _ _)
    exact ih _ (mapAddSyn_good hm h1 h2 h3)
      (fun x hx => hs x (List.mem_cons_of_mem _ hx))

theorem mapEnsure_good {m : SynMap} (hm : GoodMap m) {k : List Char}
    (hk : canon k = k) (hk0 : k ≠ []) : GoodMap (mapEnsure m k) := by
  unfold mapEnsure
  by_cases h : (m.lookup k).isSome
  · rwa [if_pos h]
  · rw [if_neg h]
    have hnone : m.lookup k = none := Option.not_isSome_iff_eq_none.mp h
    have hfresh : ∀ p ∈ m, p.1 ≠ k := synLookup_eq_none_iff.mp hnone
    obtain ⟨hpw, hgood⟩ := hm
    constructor
    · rw [List.pairwise_append]
      refine ⟨hpw, List.pairwise_singleton _ _, ?_⟩
      intro p hp q hq
      rw [List.mem_singleton] at hq
      subst hq
      exact hfresh p hp
    · intro p hp
      rcases List.mem_append.mp hp with hp | hp
      · exact hgood p hp
      · rw [List.mem_singleton] at hp
        subst hp
        exact ⟨hk, hk0, List.nodup_nil, by simp⟩

theorem mergeEntry_good {m : SynMap} (hm : GoodMap m) (e : SynonymConfig) :
    GoodMap (mergeEntry m e) := by
  unfold mergeEntry
  by_cases h0 : e.term.isEmpty
  · rwa [if_pos h0]
  · rw [if_neg h0]
    by_cases h1 : (canon e.term).isEmpty
    · rwa [if_pos h1]
    · rw [if_neg h1]
      have hk0 : canon e.term ≠ [] := by simpa [List.isEmpty_iff] using h1
      apply foldl_mapAddSyn_good _ _ (mapEnsure_good hm (canon_idem _) hk0)
      intro s hs
      rw [List.mem_filter] at hs
      obtain ⟨hmem, hkeep⟩ := hs
      obtain ⟨x, _, rfl⟩ := List.mem_map.mp hmem
      refine ⟨canon_idem x, ?_, ?_⟩
      · intro hxe
        rw [hxe] at hkeep
        simp [keepSyn] at hkeep
      · intro hxe
        rw [hxe] at hkeep
        simp [keepSyn] at hkeep

theorem foldl_mergeEntry_good (results : List SynonymConfig) :
    GoodMap (results.foldl mergeEntry []) := by
  suffices h : ∀ (rs : List SynonymConfig) (m : SynMap), GoodMap m →
      GoodMap (rs.foldl mergeEntry m) by
    exact h results [] ⟨List.Pairwise.nil, by simp⟩
  intro rs
  induction rs with
  | nil => intro m hm; exact hm
  | cons e t ih =>
    intro m hm
    exact ih _ (mergeEntry_good hm e)

/-- All well-formedness facts about the merge output, shared by the
invariant and idempotence theorems. -/
theorem mergeSynonyms_props (results : List SynonymConfig) :
    (mergeSynonyms results).Pairwise (fun a b => a.term ≠ b.term) ∧
    ∀ e ∈ mergeSynonyms results, canon e.term = e.term ∧ e.term ≠ [] ∧
      e.synonyms ≠ [] ∧ e.synonyms.Nodup ∧
      ∀ s ∈ e.synonyms, canon s = s ∧ s ≠ [] ∧ s ≠ e.term := by
  obtain ⟨hpw, hgood⟩ := foldl_mergeEntry_good results
  unfold mergeSynonyms
  constructor
  · refine List.Pairwise.sublist (List.filter_sublist _) ?_
    refine List.Pairwise.map _ ?_ hpw
    intro p q h
    exact h
  · intro e he
    rw [List.mem_filter] at he
    obtain ⟨hmem, hne⟩ := he
    obtain ⟨p, hp, rfl⟩ := List.mem_map.mp hmem
    obtain ⟨h1, h2, h3, h4⟩ := hgood p hp
    refine ⟨h1, h2, ?_, h3, h4⟩
    simpa [List.isEmpty_iff] using hne

theorem setAdd_not_mem {s : List (List Char)} {x : List Char} (h : x ∉ s) :
    setAdd s x = s ++ [x] := if_neg h

theorem foldl_setAdd_eq :
    ∀ (l acc : List (List Char)), l.Nodup → (∀ x ∈ l, x ∉ acc) →
      l.foldl setAdd acc = acc ++ l := by
  intro l
  induction l with
  | nil =>
    intro acc _ _
    simp
  | cons a t ih =>
    intro acc hnd hdisj
    have hna : a ∉ acc := hdisj a (List.mem_cons_self _ _)
    have hd2 : ∀ x ∈ t, x ∉ acc ++ [a] := by
      intro x hx
      simp only [List.mem_append, List.mem_singleton]
      rintro (h1 | rfl)
      · exact hdisj x (List.mem_cons_of_mem _ hx) h1
      · exact (List.nodup_cons.mp hnd).1 hx
    rw [List.foldl_cons, setAdd_not_mem hna,
      ih (acc ++ [a]) (List.nodup_cons.mp hnd).2 hd2, List.append_assoc]
    simp

theorem mapAddSyn_append_last {m₀ : SynMap} {k : List Char}
    (hfresh : ∀ p ∈ m₀, p.1 ≠ k) (v : List (List Char)) (s : List Char) :
    mapAddSyn (m₀ ++ [(k, v)]) k s = m₀ ++ [(k, setAdd v s)] := by
  unfold mapAddSyn
  rw [List.map_append]
  congr 1
  · rw [show m₀.map (fun p => if p.1 = k then (p.1, setAdd p.2 s) else p) =
        m₀.map id from List.map_congr_left ?_, List.map_id]
    intro p hp
    rw [if_neg (hfresh p hp)]
    rfl
  · simp

theorem foldl_mapAddSyn_last {k : List Char} {m₀ : SynMap}
    (hfresh : ∀ p ∈ m₀, p.1 ≠ k) :
    ∀ (ss : List (List Char)) (v : List (List Char)),
      ss.foldl (fun acc s => mapAddSyn acc k s) (m₀ ++ [(k, v)]) =
        m₀ ++ [(k, ss.foldl setAdd v)] := by
  intro ss
  induction ss with
  | nil =>
    intro v
    simp
  | cons s t ih =>
    intro v
    rw [List.foldl_cons, mapAddSyn_append_last hfresh, ih, List.foldl_cons]

/-- Merging one already-canonical entry whose key is fresh appends the
entry unchanged. -/
theorem mergeEntry_canonical {m : SynMap} {e : SynonymConfig}
    (hterm : canon e.term = e.term) (hne : e.term ≠ [])
    (hnd : e.synonyms.Nodup)
    (hsyns : ∀ s ∈ e.synonyms, canon s = s ∧ s ≠ [] ∧ s ≠ e.term)
    (hfresh : ∀ p ∈ m, p.1 ≠ e.term) :
    mergeEntry m e = m ++ [(e.term, e.synonyms)] := by
  have hne' : ¬e.term.isEmpty = true := by simpa [List.isEmpty_iff] using hne
  have hlook : m.lookup e.term = none := synLookup_eq_none_iff.mpr hfresh
  have hmap : e.synonyms.map canon = e.synonyms := by
    rw [show e.synonyms.map canon = e.synonyms.map id from
      List.map_congr_left fun s hs => (hsyns s hs).1, List.map_id]
  have hfilt : e.synonyms.filter (keepSyn e.term) = e.synonyms := by
    rw [List.filter_eq_self]
    intro s hs
    obtain ⟨_, h0, hne2⟩ := hsyns s hs
    simp [keepSyn, h0, hne2]
  unfold mergeEntry
  rw [if_neg hne', hterm, if_neg hne', hmap, hfilt]
  unfold mapEnsure
  rw [hlook]
  rw [if_neg (by simp)]
  rw [foldl_mapAddSyn_last hfresh, foldl_setAdd_eq e.synonyms [] hnd (by simp)]
  simp

theorem foldl_mergeEntry_canonical :
    ∀ (out : List SynonymConfig) (m : SynMap),
      out.Pairwise (fun a b => a.term ≠ b.term) →
      (∀ e ∈ out, canon e.term = e.term ∧ e.term ≠ [] ∧ e.synonyms.Nodup ∧
        ∀ s ∈ e.synonyms, canon s = s ∧ s ≠ [] ∧ s ≠ e.term) →
      (∀ e ∈ out, ∀ p ∈ m, p.1 ≠ e.term) →
      out.foldl mergeEntry m = m ++ out.map (fun e => (e.term, e.synonyms)) := by
  intro out
  induction out with
  | nil =>
    intro m _ _ _
    simp
  | cons e t ih =>
    intro m hpw hgood hfresh
    obtain ⟨h1, h2, h3, h4⟩ := hgood e (List.mem_cons_self _ _)
    rw [List.foldl_cons,
      mergeEntry_canonical h1 h2 h3 h4 (hfresh e (List.mem_cons_self _ _)),
      ih (m ++ [(e.term, e.synonyms)]) (List.pairwise_cons.mp hpw).2
        (fun x hx => hgood x (List.mem_cons_of_mem _ hx)) ?_,
      List.map_cons, List.append_assoc]
    · simp
    · intro x hx p hp
      rcases List.mem_append.mp hp with hp | hp
      · exact hfresh x (List.mem_cons_of_mem _ hx) p hp
      · rw [List.mem_singleton] at hp
        subst hp
        exact (List.pairwise_cons.mp hpw).1 x hx

/-- Merging an already-canonical output is the identity. -/
theorem mergeSynonyms_self (out : List SynonymConfig)
    (hpw : out.Pairwise fun a b => a.term ≠ b.term)
    (hgood : ∀ e ∈ out, canon e.term = e.term ∧ e.term ≠ [] ∧
      e.synonyms ≠ [] ∧ e.synonyms.Nodup ∧
      ∀ s ∈ e.synonyms, canon s = s ∧ s ≠ [] ∧ s ≠ e.term) :
    mergeSynonyms out = out := by
  unfold mergeSynonyms
  rw [foldl_mergeEntry_canonical out [] hpw
    (fun e he => ⟨(hgood e he).1, (hgood e he).2.1, (hgood e he).2.2.2.1,
      (hgood e he).2.2.2.2⟩) (by simp),
    List.nil_append, List.map_map]
  rw [show (fun p : List Char × List (List Char) => SynonymConfig.mk p.1 p.2) ∘
      (fun e : SynonymConfig => (e.term, e.synonyms)) = id from
    funext fun e => by cases e; rfl, List.map_id]
  rw [List.filter_eq_self]
  intro e he
  simpa [List.isEmpty_iff] using (hgood e he).2.2.1

/-- C4: the merge step (lowercase and trim terms, union synonym sets per
term, drop synonyms equal to their term, drop empty-set entries) is
idempotent: applying it to its own output reproduces that output. -/
theorem C4_merge_idempotent (results : List SynonymConfig) :
    mergeSynonyms (mergeSynonyms results) = mergeSynonyms results := by
  obtain ⟨hpw, hgood⟩ := mergeSynonyms_props results
  exact mergeSynonyms_self _ hpw hgood

/-- C5: every entry of the persisted synonym index has a canonical
(lowercased, trimmed) non-empty term, unique among entries, and a
non-empty duplicate-free synonym set of canonical non-empty synonyms,
none equal to the entry's own term. -/
theorem C5_persisted_invariant (results : List SynonymConfig) :
    (mergeSynonyms results).Pairwise (fun a b => a.term ≠ b.term) ∧
    ∀ e ∈ mergeSynonyms results, canon e.term = e.term ∧ e.term ≠ [] ∧
      e.synonyms ≠ [] ∧ e.synonyms.Nodup ∧
      ∀ s ∈ e.synonyms, canon s = s ∧ s ≠ [] ∧ s ≠ e.term :=
  mergeSynonyms_props results

/-- C5 witness at a concrete raw extraction list with a mixed-case,
padded term, a duplicate, an empty synonym, and a synonym equal to its
term. -/
theorem C5_witness :
    (mergeSynonyms [⟨" VPN ".data, ["Tunnel ".data, "vpn".data, [],
        "tunnel".data]⟩]).Pairwise (fun a b => a.term ≠ b.term) ∧
    ∀ e ∈ mergeSynonyms [⟨" VPN ".data, ["Tunnel ".data, "vpn".data, [],
        "tunnel".data]⟩], canon e.term = e.term ∧ e.term ≠ [] ∧
      e.synonyms ≠ [] ∧ e.synonyms.Nodup ∧
      ∀ s ∈ e.synonyms, canon s = s ∧ s ≠ [] ∧ s ≠ e.term :=
  C5_persisted_invariant [⟨" VPN ".data, ["Tunnel ".data, "vpn".data, [],
    "tunnel".data]⟩]

/-! ### Batch accumulation (`optimizeExtractSynonyms.ts`, `generateSynonyms`) -/

/-- One document unit (the `{name, text}` objects batched for extraction). -/
structure DocUnit where
  name : List Char
  text : List Char
deriving DecidableEq

/-- The per-batch character budget `MAX_CHARS_PER_BATCH`. -/
def MAX_CHARS_PER_BATCH : Nat := 20000

/-- The `while (start < doc.text.length)` loop of `splitDocIntoChunks`,
with fuel (`start` advances by the positive constant budget, so
`doc.text.length` fuel is enough). -/
def splitDocGo (doc : DocUnit) : Nat → Nat → Nat → List DocUnit
  | 0, _, _ => []
  | fuel + 1, start, index =>
    if start < doc.text.length then
      ⟨doc.name ++ '#' :: (Nat.repr index).data,
        (doc.text.drop start).take MAX_CHARS_PER_BATCH⟩ ::
        splitDocGo doc fuel (start + MAX_CHARS_PER_BATCH) (index + 1)
    else []

/-- Model of `splitDocIntoChunks(doc)`. -/
def splitDocIntoChunks (doc : DocUnit) : List DocUnit :=
  splitDocGo doc doc.text.length 0 1

/-- Oversized documents are pre-split; others enter whole
(`docsToInsert` in `generateSynonyms`). -/
def docsToUnits (docs : List DocUnit) : List DocUnit :=
  docs.flatMap fun d =>
    if d.text.length > MAX_CHARS_PER_BATCH then splitDocIntoChunks d else [d]

/-- The batch-accumulation loop of `generateSynonyms`: flush the current
batch when the next unit would push the accumulated size over budget; the
final non-empty batch is flushed at the end.  Returns the batches in
submission order. -/
def batchGo : List DocUnit → List DocUnit → Nat → List (List DocUnit)
  | [], batch, _ => if batch.isEmpty then [] else [batch]
  | u :: rest, batch, size =>
    if size + u.text.length > MAX_CHARS_PER_BATCH then
      batch :: batchGo rest [u] u.text.length
    else
      batchGo rest (batch ++ [u]) (size + u.text.length)

/-- The batches submitted to `extractBatch` by `generateSynonyms`, for a
given cleaned document list. -/
def generateSynonymsBatches (docs : List DocUnit) : List (List DocUnit) :=
  batchGo (docsToUnits docs) [] 0

/-- Accumulated character count of a batch. -/
def batchSize (b : List DocUnit) : Nat :=
  (b.map fun u => u.text.length).sum

theorem splitDocGo_chunk_le (doc : DocUnit) :
    ∀ fuel start index, ∀ u ∈ splitDocGo doc fuel start index,
      u.text.length ≤ MAX_CHARS_PER_BATCH := by
  intro fuel
  induction fuel with
  | zero =>
    intro start index u hu
    simp [splitDocGo] at hu
  | succ fuel ih =>
    intro start index u hu
    simp only [splitDocGo] at hu
    by_cases h : start < doc.text.length
    · rw [if_pos h] at hu
      rcases List.mem_cons.mp hu with rfl | hu
      · exact List.length_take_le _ _
      · exact ih _ _ u hu
    · rw [if_neg h] at hu
      simp at hu

theorem docsToUnits_le (docs : List DocUnit) :
    ∀ u ∈ docsToUnits docs, u.text.length ≤ MAX_CHARS_PER_BATCH := by
  intro u hu
  unfold docsToUnits at hu
  obtain ⟨d, _, hmem⟩ := List.mem_flatMap.mp hu
  by_cases h : d.text.length > MAX_CHARS_PER_BATCH
  · rw [if_pos h] at hmem
    exact splitDocGo_chunk_le d _ _ _ u hmem
  · rw [if_neg h] at hmem
    rw [List.mem_singleton] at hmem
    subst hmem
    exact Nat.le_of_not_lt h

theorem batchGo_size_le :
    ∀ (units : List DocUnit) (batch : List DocUnit) (size : Nat),
      (∀ u ∈ units, u.text.length ≤ MAX_CHARS_PER_BATCH) →
      size = batchSize batch → size ≤ MAX_CHARS_PER_BATCH →
      ∀ b ∈ batchGo units batch size, batchSize b ≤ MAX_CHARS_PER_BATCH := by
  intro units
  induction units with
  | nil =>
    intro batch size _ hsz hle b hb
    simp only [batchGo] at hb
    by_cases h : batch.isEmpty
    · rw [if_pos h] at hb
      simp at hb
    · rw [if_neg h] at hb
      rw [List.mem_singleton] at hb
      subst hb
      exact hsz ▸ hle
  | cons u rest ih =>
    intro batch size hunits hsz hle b hb
    simp only [batchGo] at hb
    have hu : u.text.length ≤ MAX_CHARS_PER_BATCH :=
      hunits u (List.mem_cons_self _ _)
    have hrest : ∀ x ∈ rest, x.text.length ≤ MAX_CHARS_PER_BATCH :=
      fun x hx => hunits x (List.mem_cons_of_mem _ hx)
    by_cases h : size + u.text.length > MAX_CHARS_PER_BATCH
    · rw [if_pos h] at hb
      rcases List.mem_cons.mp hb with rfl | hb
      · exact hsz ▸ hle
      · exact ih [u] u.text.length hrest (by simp [batchSize]) hu b hb
    · rw [if_neg h] at hb
      refine ih (batch ++ [u]) (size + u.text.length) hrest ?_
        (Nat.le_of_not_lt h) b hb
      simp [batchSize, hsz]

/-- C3: every batch submitted by `generateSynonyms` has accumulated unit
text of total length at most the budget, or is a lone unit exceeding the
budget (in fact the pre-splitting makes the second case unreachable, so
the bound always holds). -/
theorem C3_batch_size_bound (docs : List DocUnit) (b : List DocUnit)
    (hb : b ∈ generateSynonymsBatches docs) :
    batchSize b ≤ MAX_CHARS_PER_BATCH ∨
      (∃ u, b = [u] ∧ u.text.length > MAX_CHARS_PER_BATCH) :=
  Or.inl (batchGo_size_le (docsToUnits docs) [] 0 (docsToUnits_le docs)
    (by simp [batchSize]) (by simp) b hb)

/-- C3 witness at a two-document corpus fitting in one batch. -/
theorem C3_witness :
    [DocUnit.mk "a.json".data "alpha beta".data,
      DocUnit.mk "b.json".data "gamma".data] ∈
      generateSynonymsBatches [DocUnit.mk "a.json".data "alpha beta".data,
        DocUnit.mk "b.json".data "gamma".data] ∧
    (batchSize [DocUnit.mk "a.json".data "alpha beta".data,
        DocUnit.mk "b.json".data "gamma".data] ≤ MAX_CHARS_PER_BATCH ∨
      (∃ u, [DocUnit.mk "a.json".data "alpha beta".data,
          DocUnit.mk "b.json".data "gamma".data] = [u] ∧
        u.text.length > MAX_CHARS_PER_BATCH)) :=
  ⟨by decide,
    C3_batch_size_bound
      [DocUnit.mk "a.json".data "alpha beta".data,
        DocUnit.mk "b.json".data "gamma".data]
      [DocUnit.mk "a.json".data "alpha beta".data,
        DocUnit.mk "b.json".data "gamma".data]
      (by decide)⟩

/-! ### Hash cache and image processor (`geminiService.ts`,
`processImagesToRag`) -/

/-- The persisted image hash cache (`image-hash-cache.json`): an
insertion-ordered map from image name to content digest. -/
abbrev HashCache := List (List Char × List Char)

def cacheGet (c : HashCache) (k : List Char) : Option (List Char) :=
  c.lookup k

/-- `hashCache[image] = hash`: upsert preserving insertion order. -/
def cacheSet : HashCache → List Char → List Char → HashCache
  | [], k, v => [(k, v)]
  | p :: rest, k, v => if p.1 = k then (k, v) :: rest else p :: cacheSet rest k v

/-- One file of the images directory. -/
structure ImageFile where
  name : List Char
  bytes : List Char
deriving DecidableEq

/-- The file filter `/\.(png|jpg|jpeg|gif)$/i`. -/
def isImageFile (name : List Char) : Bool :=
  ".png".data.isSuffixOf (lowerStr name) ||
    ".jpg".data.isSuffixOf (lowerStr name) ||
    ".jpeg".data.isSuffixOf (lowerStr name) ||
    ".gif".data.isSuffixOf (lowerStr name)

/-- Observable result of one `processImagesToRag` pass: final cache, the
images analysed, and the images uploaded. -/
structure ImagesResult where
  cache : HashCache
  analyzed : List (List Char)
  uploaded : List (List Char)
deriving DecidableEq

/-- The `for (const image of images)` loop of `processImagesToRag`:
run-local duplicate skip, hash-cache hit skip, else analyse, upload and
record the digest (happy path: analysis and upload succeed; `hash` is the
content digest of the asset store's bytes). -/
def processImagesGo (hash : List Char → List Char) :
    List ImageFile → List (List Char) → HashCache →
      List (List Char) → List (List Char) → ImagesResult
  | [], _, cache, analyzed, uploaded => ⟨cache, analyzed, uploaded⟩
  | img :: rest, processed, cache, analyzed, uploaded =>
    if img.name ∈ processed then
      processImagesGo hash rest processed cache analyzed uploaded
    else if cacheGet cache img.name = some (hash img.bytes) then
      processImagesGo hash rest (img.name :: processed) cache analyzed uploaded
    else
      processImagesGo hash rest (img.name :: processed)
        (cacheSet cache img.name (hash img.bytes))
        (analyzed ++ [img.name]) (uploaded ++ [img.name])

/-- Model of `processImagesToRag`: filter the directory listing, then run
the loop against the given persisted cache. -/
def processImagesToRag (hash : List Char → List Char)
    (images : List ImageFile) (cache : HashCache) : ImagesResult :=
  processImagesGo hash (images.filter fun i => isImageFile i.name) [] cache [] []

theorem cacheGet_cacheSet_ne (c : HashCache) (k v k' : List Char)
    (h : k' ≠ k) : cacheGet (cacheSet c k v) k' = cacheGet c k' := by
  induction c with
  | nil =>
    have hb : (k' == k) = false := by simp [h]
    simp [cacheSet, cacheGet, List.lookup, hb]
  | cons p rest ih =>
    by_cases hp : p.1 = k
    · rw [show cacheSet (p :: rest) k v = (k, v) :: rest from by
        simp [cacheSet, hp]]
      have hb : (k' == k) = false := by simp [h]
      have hb' : (k' == p.1) = false := by simp [hp, h]
      simp only [cacheGet, List.lookup, hb, hb']
    · rw [show cacheSet (p :: rest) k v = p :: cacheSet rest k v from by
        simp [cacheSet, hp]]
      by_cases hq : k' = p.1
      · have hb : (k' == p.1) = true := by simp [hq]
        simp only [cacheGet, List.lookup, hb]
      · have hb : (k' == p.1) = false := by simp [hq]
        simp only [cacheGet, List.lookup, hb]
        exact ih

/-- Once a name is in the run-local `processed` set, the rest of the pass
neither analyses nor uploads it, and leaves its cache record alone. -/
theorem processImagesGo_locked (hash : List Char → List Char)
    (name : List Char) :
    ∀ (imgs : List ImageFile) (processed : List (List Char))
      (cache : HashCache) (analyzed uploaded : List (List Char)),
      name ∈ processed → name ∉ analyzed → name ∉ uploaded →
      name ∉ (processImagesGo hash imgs processed cache analyzed uploaded).analyzed ∧
      name ∉ (processImagesGo hash imgs processed cache analyzed uploaded).uploaded ∧
      cacheGet (processImagesGo hash imgs processed cache analyzed uploaded).cache
          name = cacheGet cache name := by
  intro imgs
  induction imgs with
  | nil =>
    intro processed cache analyzed uploaded _ ha hu
    exact ⟨ha, hu, rfl⟩
  | cons i rest ih =>
    intro processed cache analyzed uploaded hp ha hu
    simp only [processImagesGo]
    by_cases h1 : i.name ∈ processed
    · rw [if_pos h1]
      exact ih processed cache analyzed uploaded hp ha hu
    · rw [if_neg h1]
      have hne : i.name ≠ name := fun he => h1 (he ▸ hp)
      by_cases h2 : cacheGet cache i.name = some (hash i.bytes)
      · rw [if_pos h2]
        exact ih _ cache analyzed uploaded (List.mem_cons_of_mem _ hp) ha hu
      · rw [if_neg h2]
        have ha' : name ∉ analyzed ++ [i.name] := by
          simp only [List.mem_append, List.mem_singleton]
          rintro (h | rfl)
          · exact ha h
          · exact hne rfl
        have hu' : name ∉ uploaded ++ [i.name] := by
          simp only [List.mem_append, List.mem_singleton]
          rintro (h | rfl)
          · exact hu h
          · exact hne rfl
        obtain ⟨r1, r2, r3⟩ := ih (i.name :: processed)
          (cacheSet cache i.name (hash i.bytes)) (analyzed ++ [i.name])
          (uploaded ++ [i.name]) (List.mem_cons_of_mem _ hp) ha' hu'
        refine ⟨r1, r2, ?_⟩
        rw [r3, cacheGet_cacheSet_ne _ _ _ _ (Ne.symm hne)]

/-- A cache hit on the first image of a given name skips it: not analysed,
not uploaded, record unchanged. -/
theorem processImagesGo_hit (hash : List Char → List Char)
    (img : ImageFile) :
    ∀ (imgs : List ImageFile) (processed : List (List Char))
      (cache : HashCache) (analyzed uploaded : List (List Char)),
      imgs.find? (fun i => i.name == img.name) = some img →
      img.name ∉ processed →
      cacheGet cache img.name = some (hash img.bytes) →
      img.name ∉ analyzed → img.name ∉ uploaded →
      img.name ∉ (processImagesGo hash imgs processed cache analyzed uploaded).analyzed ∧
      img.name ∉ (processImagesGo hash imgs processed cache analyzed uploaded).uploaded ∧
      cacheGet (processImagesGo hash imgs processed cache analyzed uploaded).cache
          img.name = some (hash img.bytes) := by
  intro imgs
  induction imgs with
  | nil =>
    intro processed cache analyzed uploaded hfind _ _ _ _
    simp [List.find?] at hfind
  | cons i rest ih =>
    intro processed cache analyzed uploaded hfind hp hhit ha hu
    simp only [processImagesGo]
    by_cases heq : (i.name == img.name) = true
    · simp only [List.find?_cons, heq] at hfind
      have hieq : i = img := by
        injection hfind
      subst hieq
      rw [if_neg hp, if_pos hhit]
      obtain ⟨r1, r2, r3⟩ := processImagesGo_locked hash i.name rest
        (i.name :: processed) cache analyzed uploaded
        (List.mem_cons_self _ _) ha hu
      exact ⟨r1, r2, r3.trans hhit⟩
    · have heq' : (i.name == img.name) = false := by simpa using heq
      simp only [List.find?_cons, heq'] at hfind
      have hne : i.name ≠ img.name := by simpa using heq
      by_cases h1 : i.name ∈ processed
      · rw [if_pos h1]
        exact ih processed cache analyzed uploaded hfind hp hhit ha hu
      · rw [if_neg h1]
        by_cases h2 : cacheGet cache i.name = some (hash i.bytes)
        · rw [if_pos h2]
          refine ih _ cache analyzed uploaded hfind ?_ hhit ha hu
          simp only [List.mem_cons]
          rintro (h | h)
          · exact hne h.symm
          · exact hp h
        · rw [if_neg h2]
          refine ih _ _ _ _ hfind ?_ ?_ ?_ ?_
          · simp only [List.mem_cons]
            rintro (h | h)
            · exact hne h.symm
            · exact hp h
          · rw [cacheGet_cacheSet_ne _ _ _ _ hne.symm]
            exact hhit
          · simp only [List.mem_append, List.mem_singleton]
            rintro (h | h)
            · exact ha h
            · exact hne h.symm
          · simp only [List.mem_append, List.mem_singleton]
            rintro (h | h)
            · exact hu h
            · exact hne h.symm

/-! ### Sync orchestrator (`geminiService.ts`, `syncWikiToGeminiRag`) -/

/-- One exported wiki page file of `config/wiki-files`. -/
structure WikiFile where
  name : List Char
  title : List Char
  source : List Char
  content : List Char
deriving DecidableEq

/-- The persisted and remote state a sync run can touch. -/
structure World where
  filesDir : Option (List WikiFile)     -- `none`: directory missing
  images : List ImageFile               -- images directory listing
  hashCacheFile : Option HashCache      -- `none`: cache file absent
  store : Option (List (List Char))     -- remote store and its documents
  synonymsFile : Option (List SynonymConfig)
deriving DecidableEq

/-- External collaborators of a sync run: the content digest and the batch
extraction output of the generation service (failed batches appear as
missing entries). -/
structure SyncEnv where
  hash : List Char → List Char
  rawResults : List WikiFile → List SynonymConfig

/-- Observable outcome of one `syncWikiToGeminiRag` call. -/
inductive SyncOutcome
  | skippedBecauseRunning
  | validationError
  | completed (textFilesUploaded : Nat) (images : ImagesResult)
deriving DecidableEq

/-- The `f.endsWith(".json")` filter. -/
def endsWithJson (name : List Char) : Bool :=
  ".json".data.isSuffixOf name

/-- Model of `syncWikiToGeminiRag` (happy path for uploads): guard check,
validation, clear hash cache, recreate store, regenerate synonyms, upload
texts, process images, clear the guard in `finally`.  Returns the guard
flag after the call, the final world and the outcome. -/
def syncWikiToGeminiRag (env : SyncEnv) (syncRunning : Bool) (w : World) :
    Bool × World × SyncOutcome :=
  if syncRunning then (syncRunning, w, .skippedBecauseRunning)
  else
    match w.filesDir with
    | none => (false, w, .validationError)
    | some files =>
      let textFiles := files.filter fun f => endsWithJson f.name
      if textFiles.isEmpty then (false, w, .validationError)
      else
        let r := processImagesToRag env.hash w.images []
        (false,
          { filesDir := w.filesDir
            images := w.images
            hashCacheFile := if r.uploaded.isEmpty then none else some r.cache
            store := some ((textFiles.map fun f => f.name) ++ r.uploaded)
            synonymsFile := some (mergeSynonyms (env.rawResults files)) },
          .completed textFiles.length r)

/-- C8: a second invocation while a sync is already running returns
immediately with the guard still set and no state change at all. -/
theorem C8_single_flight (env : SyncEnv) (w : World) :
    syncWikiToGeminiRag env true w = (true, w, .skippedBecauseRunning) :=
  rfl

/-- C7: when the source directory is missing or holds no `.json` file, the
run aborts with no state change: hash cache, remote store, synonym file
and uploads are all untouched. -/
theorem C7_validation_atomic (env : SyncEnv) (w : World)
    (h : w.filesDir = none ∨
      ∃ files, w.filesDir = some files ∧
        files.filter (fun f => endsWithJson f.name) = []) :
    syncWikiToGeminiRag env false w = (false, w, .validationError) := by
  rcases h with h | ⟨files, hf, hempty⟩
  · simp only [syncWikiToGeminiRag, if_neg (Bool.false_ne_true)]
    rw [h]
  · simp only [syncWikiToGeminiRag, if_neg (Bool.false_ne_true)]
    rw [hf]
    simp [hempty]

/-- C7 witness: a missing source directory aborts with the world intact. -/
theorem C7_witness :
    (World.mk none [ImageFile.mk "img.png".data "B".data] none
        (some ["old.json".data]) none).filesDir = none ∧
    syncWikiToGeminiRag ⟨fun b => b, fun _ => []⟩ false
        (World.mk none [ImageFile.mk "img.png".data "B".data] none
          (some ["old.json".data]) none) =
      (false,
        World.mk none [ImageFile.mk "img.png".data "B".data] none
          (some ["old.json".data]) none,
        .validationError) :=
  ⟨rfl,
    C7_validation_atomic ⟨fun b => b, fun _ => []⟩
      (World.mk none [ImageFile.mk "img.png".data "B".data] none
        (some ["old.json".data]) none)
      (Or.inl rfl)⟩

/-! ### C2: cross-run hash-cache behaviour -/

/-- The images result of a completed run. -/
def outcomeAnalyzed : SyncOutcome → List (List Char)
  | .completed _ r => r.analyzed
  | _ => []

def outcomeUploaded : SyncOutcome → List (List Char)
  | .completed _ r => r.uploaded
  | _ => []

/-- Example environment and world for the two-run scenario: one wiki page,
one image whose bytes never change. -/
def exEnv : SyncEnv := ⟨fun b => b, fun _ => []⟩

def exW0 : World :=
  World.mk (some [WikiFile.mk "a.json".data "T".data "S".data "C".data])
    [ImageFile.mk "img.png".data "BYTES".data] none none none

/-- Run N and run N+1 of the sync over the unchanged corpus. -/
def exRun1 : Bool × World × SyncOutcome := syncWikiToGeminiRag exEnv false exW0

def exRun2 : Bool × World × SyncOutcome :=
  syncWikiToGeminiRag exEnv false exRun1.2.1

/-- C2 counterexample: the image is uploaded in run N, its bytes are
unchanged in run N+1 (the world's images are identical), yet run N+1
analyses and uploads it again — because `syncWikiToGeminiRag` clears the
hash cache before processing, the cross-run cache hit never happens. -/
theorem C2_counterexample :
    "img.png".data ∈ outcomeUploaded exRun1.2.2 ∧
    exRun1.2.1.images = exW0.images ∧
    "img.png".data ∈ outcomeAnalyzed exRun2.2.2 ∧
    "img.png".data ∈ outcomeUploaded exRun2.2.2 := by
  decide

/-- C2 (amended): the cache-hit skip holds at the `processImagesToRag`
level: if the first image of a given name has its current digest in the
cache handed to the pass, that image is neither analysed nor uploaded and
its record is unchanged.  A full sync run clears the cache first, so
across `syncWikiToGeminiRag` runs every asset is re-analysed and
re-uploaded instead. -/
theorem C2_amended_cache_hit (hash : List Char → List Char)
    (images : List ImageFile) (cache : HashCache) (img : ImageFile)
    (hfind : (images.filter fun i => isImageFile i.name).find?
      (fun i => i.name == img.name) = some img)
    (hhit : cacheGet cache img.name = some (hash img.bytes)) :
    img.name ∉ (processImagesToRag hash images cache).analyzed ∧
    img.name ∉ (processImagesToRag hash images cache).uploaded ∧
    cacheGet (processImagesToRag hash images cache).cache img.name =
      some (hash img.bytes) :=
  processImagesGo_hit hash img _ [] cache [] [] hfind (by simp) hhit
    (by simp) (by simp)

/-- C2 amended witness: one cached image, identity digest. -/
theorem C2_witness :
    ((([ImageFile.mk "img.png".data "BYTES".data].filter
        fun i => isImageFile i.name).find?
      (fun i => i.name == ("img.png".data : List Char)) =
        some (ImageFile.mk "img.png".data "BYTES".data)) ∧
      cacheGet [("img.png".data, "BYTES".data)] "img.png".data =
        some "BYTES".data) ∧
    ("img.png".data ∉ (processImagesToRag (fun b => b)
        [ImageFile.mk "img.png".data "BYTES".data]
        [("img.png".data, "BYTES".data)]).analyzed ∧
      "img.png".data ∉ (processImagesToRag (fun b => b)
        [ImageFile.mk "img.png".data "BYTES".data]
        [("img.png".data, "BYTES".data)]).uploaded ∧
      cacheGet (processImagesToRag (fun b => b)
        [ImageFile.mk "img.png".data "BYTES".data]
        [("img.png".data, "BYTES".data)]).cache "img.png".data =
        some "BYTES".data) :=
  ⟨⟨by decide, by decide⟩,
    C2_amended_cache_hit (fun b => b)
      [ImageFile.mk "img.png".data "BYTES".data]
      [("img.png".data, "BYTES".data)]
      (ImageFile.mk "img.png".data "BYTES".data)
      (by decide) (by decide)⟩

/-! ### Query rewriter and search (`rewriteQueryForFileSearch.ts`,
`searchWiki` in `geminiService.ts`) -/

/-- Error payload of a failed external call. -/
abbrev Err := List Char

def DATASET_NAME : List Char := "IT_Wiki".data

/-- JS `array.join(sep)`. -/
def joinSep (sep : List Char) : List (List Char) → List Char
  | [] => []
  | c :: rest => c ++ (rest.map fun x => sep ++ x).flatten

/-- `findRelevantSynonyms`: entries whose lowercased term or any lowercased
synonym occurs in the lowercased question. -/
def findRelevantSynonyms (entries : List SynonymConfig)
    (question : List Char) : List SynonymConfig :=
  entries.filter (entryHit (lowerStr question))

/-- `buildSynonymContext`: one dash line per matching entry, or the fixed
placeholder sentence. -/
def buildSynonymContext (entries : List SynonymConfig) : List Char :=
  if entries.isEmpty then "None found for this question.".data
  else
    joinSep ['\n'] (entries.map fun e =>
      "- ".data ++ (e.term ++ (": ".data ++ sepJoin e.synonyms)))

/-- The fixed instruction template of the rewrite prompt (rule text
abbreviated; the synonym context and the question are spliced in exactly
as in the source). -/
def rewritePrompt (synonymContext question : List Char) : List Char :=
  "You are a query rewriting assistant for an internal IT documentation search.\n".data ++
    ("Relevant domain terms and synonyms for expansion:\n".data ++
      (synonymContext ++
        ("\nUser question:\n".data ++
          (question ++ "\nRewrite the instruction now.\n".data))))

/-- Model of `rewriteUserQuestionForFileSearch`: build the prompt, call the
external generation service `gen`, trim the answer.  The source has no
try/catch around the call, so a failure propagates unchanged. -/
def rewriteUserQuestionForFileSearch
    (gen : List Char → Except Err (List Char))
    (entries : List SynonymConfig) (question : List Char) :
    Except Err (List Char) :=
  match gen (rewritePrompt
      (buildSynonymContext (findRelevantSynonyms entries question))
      question) with
  | .error e => .error e
  | .ok res => .ok (jsTrim res)

/-- External collaborators of `searchWiki`: the store listing, the rewrite
generation call and the QA generation call. -/
structure SearchEnv where
  stores : List (List Char)
  rewriteGen : List Char → Except Err (List Char)
  qaGen : List Char → Except Err (List Char)

/-- Model of `searchWiki`: find the store by display name (throw when
absent), rewrite the question (mandatory, no fallback), then the QA call
with one retry on an empty trimmed answer and the fixed fallback
sentence. -/
def searchWiki (env : SearchEnv) (entries : List SynonymConfig)
    (query : List Char) : Except Err (List Char) :=
  if DATASET_NAME ∈ env.stores then
    match rewriteUserQuestionForFileSearch env.rewriteGen entries query with
    | .error e => .error e
    | .ok rewriteQuestion =>
      match env.qaGen rewriteQuestion with
      | .error e => .error e
      | .ok a₁ =>
        if ¬(jsTrim a₁).isEmpty then .ok a₁
        else
          match env.qaGen rewriteQuestion with
          | .error e => .error e
          | .ok a₂ =>
            if ¬(jsTrim a₂).isEmpty then .ok a₂
            else .ok "No answer found.".data
  else .error "RAG store not found".data

/-- C9: when the external generation call of the rewrite step fails, the
error leaves `rewriteUserQuestionForFileSearch` and `searchWiki` uncaught;
no fallback to the raw question happens. -/
theorem C9_rewrite_failure_propagates (env : SearchEnv)
    (entries : List SynonymConfig) (query : List Char) (e : Err)
    (hstore : DATASET_NAME ∈ env.stores)
    (hfail : env.rewriteGen (rewritePrompt
      (buildSynonymContext (findRelevantSynonyms entries query)) query) =
        .error e) :
    rewriteUserQuestionForFileSearch env.rewriteGen entries query =
      .error e ∧
    searchWiki env entries query = .error e := by
  have h1 : rewriteUserQuestionForFileSearch env.rewriteGen entries query =
      .error e := by
    unfold rewriteUserQuestionForFileSearch
    rw [hfail]
  refine ⟨h1, ?_⟩
  unfold searchWiki
  rw [if_pos hstore, h1]

/-- C9 witness: a rewrite service that always fails with "boom". -/
theorem C9_witness :
    (DATASET_NAME ∈ [DATASET_NAME] ∧
      (fun _ : List Char =>
          (Except.error "boom".data : Except Err (List Char)))
        (rewritePrompt
          (buildSynonymContext (findRelevantSynonyms [] "hi".data))
          "hi".data) = .error "boom".data) ∧
    (rewriteUserQuestionForFileSearch
        (fun _ => .error "boom".data) [] "hi".data = .error "boom".data ∧
      searchWiki
        ⟨[DATASET_NAME], fun _ => .error "boom".data, fun _ => .ok []⟩
        [] "hi".data = .error "boom".data) :=
  ⟨⟨by decide, rfl⟩,
    C9_rewrite_failure_propagates
      ⟨[DATASET_NAME], fun _ => .error "boom".data, fun _ => .ok []⟩
      [] "hi".data "boom".data (by decide) rfl⟩

end WikiRag
